import Mathlib

/-!
Verification development for the PricePulse price-tracking repository
(frontend TypeScript under `src/frontend`, plus the spec of the backend
Price Tracking & Alert Engine).  Prices are modelled as exact rationals
(`ℚ`) where the code holds JavaScript numbers, and as naturals where the
spec mandates integer minor units.  Firestore documents are modelled as
explicit records; collections as lists or lookup functions.
-/

/-- A stored price point of the per-product history series (spec §3). -/
structure PricePoint where
  productId : String
  observedAt : Nat
  price : Nat
  currency : String
deriving DecidableEq, Repr

/-- The observation keys of a history series. -/
def obsKeys (h : List PricePoint) : List Nat :=
  h.map PricePoint.observedAt

/-- The series invariant maintained by the history store: strictly
ascending `observedAt` (hence no duplicate keys). -/
def AscendingSeries (h : List PricePoint) : Prop :=
  h.Pairwise (fun p q => p.observedAt < q.observedAt)

instance : DecidablePred AscendingSeries := fun h =>
  List.instDecidablePairwise h

/-- Modelled from the spec: the History Store Adapter's insert step
(§3, §4.4) is missing from `src/` (the backend is not in the tree).
Insertion keeps the series sorted by `observedAt` (out-of-order-safe)
and is first-write-wins on an existing `observedAt` key: a point whose
key is already stored is dropped (the conflicting writer only logs). -/
def historyInsert (h : List PricePoint) (p : PricePoint) : List PricePoint :=
  match h with
  | [] => [p]
  | q :: rest =>
    if p.observedAt < q.observedAt then p :: q :: rest
    else if p.observedAt = q.observedAt then q :: rest
    else q :: historyInsert rest p

/-- Modelled from the spec: the per-product history store (§4.4),
`append(productId, PricePoint)` routes the point to its product's series. -/
def HistoryStore : Type := String → List PricePoint

/-- Modelled from the spec: `append` of the History Store Adapter (§4.4). -/
def historyAppend (s : HistoryStore) (p : PricePoint) : HistoryStore :=
  fun pid => if pid = p.productId then historyInsert (s pid) p else s pid

/-- Number of stored points for a given `observedAt` key in a series. -/
def countKey (h : List PricePoint) (t : Nat) : Nat :=
  (obsKeys h).count t

/-- The stored price at a given `observedAt` key, if present. -/
def priceAt (h : List PricePoint) (t : Nat) : Option Nat :=
  (h.find? (fun q => q.observedAt = t)).map PricePoint.price

theorem mem_historyInsert {h : List PricePoint} {p x : PricePoint}
    (hx : x ∈ historyInsert h p) : x ∈ h ∨ x = p := by
  induction h with
  | nil =>
    simp [historyInsert] at hx
    exact Or.inr hx
  | cons q rest ih =>
    by_cases h1 : p.observedAt < q.observedAt
    · simp [historyInsert, h1] at hx
      rcases hx with hx | hx | hx
      · exact Or.inr hx
      · exact Or.inl (by simp [hx])
      · exact Or.inl (by simp [hx])
    · by_cases h2 : p.observedAt = q.observedAt
      · simp [historyInsert, h1, h2] at hx
        rcases hx with hx | hx
        · exact Or.inl (by simp [hx])
        · exact Or.inl (by simp [hx])
      · simp [historyInsert, h1, h2] at hx
        rcases hx with hx | hx
        · exact Or.inl (by simp [hx])
        · rcases ih hx with h3 | h3
          · exact Or.inl (by simp [h3])
          · exact Or.inr h3

theorem key_mem_historyInsert (h : List PricePoint) (p : PricePoint) :
    p.observedAt ∈ obsKeys (historyInsert h p) := by
  induction h with
  | nil => simp [historyInsert, obsKeys]
  | cons q rest ih =>
    by_cases h1 : p.observedAt < q.observedAt
    · simp [historyInsert, h1, obsKeys]
    · by_cases h2 : p.observedAt = q.observedAt
      · simp [historyInsert, h1, h2, obsKeys]
      · simp [historyInsert, h1, h2, obsKeys] at ih ⊢
        exact ih

theorem historyInsert_ascending {h : List PricePoint} (p : PricePoint)
    (ha : AscendingSeries h) : AscendingSeries (historyInsert h p) := by
  induction h with
  | nil => simp [historyInsert, AscendingSeries]
  | cons q rest ih =>
    rw [AscendingSeries, List.pairwise_cons] at ha
    obtain ⟨hq, hrest⟩ := ha
    by_cases h1 : p.observedAt < q.observedAt
    · rw [AscendingSeries]
      simp only [historyInsert]
      rw [if_pos h1, List.pairwise_cons]
      constructor
      · intro x hx
        rcases List.mem_cons.mp hx with hx | hx
        · simpa [hx] using h1
        · exact lt_trans h1 (hq x hx)
      · rw [List.pairwise_cons]
        exact ⟨hq, hrest⟩
    · by_cases h2 : p.observedAt = q.observedAt
      · rw [AscendingSeries]
        simp only [historyInsert]
        rw [if_neg h1, if_pos h2, List.pairwise_cons]
        exact ⟨hq, hrest⟩
      · have h3 : q.observedAt < p.observedAt := by omega
        rw [AscendingSeries]
        simp only [historyInsert]
        rw [if_neg h1, if_neg h2, List.pairwise_cons]
        constructor
        · intro x hx
          rcases mem_historyInsert hx with h4 | h4
          · exact hq x h4
          · simpa [h4] using h3
        · exact ih hrest

theorem historyInsert_of_key_mem {h : List PricePoint} {p : PricePoint}
    (ha : AscendingSeries h) (hk : p.observedAt ∈ obsKeys h) :
    historyInsert h p = h := by
  induction h with
  | nil => simp [obsKeys] at hk
  | cons q rest ih =>
    rw [AscendingSeries, List.pairwise_cons] at ha
    obtain ⟨hq, hrest⟩ := ha
    simp only [obsKeys, List.map_cons, List.mem_cons, List.mem_map] at hk
    by_cases h1 : p.observedAt < q.observedAt
    · exfalso
      rcases hk with hk | ⟨x, hx, hxk⟩
      · omega
      · have := hq x hx
        omega
    · by_cases h2 : p.observedAt = q.observedAt
      · simp [historyInsert, h1, h2]
      · have hk' : p.observedAt ∈ obsKeys rest := by
          rcases hk with hk | ⟨x, hx, hxk⟩
          · exact absurd hk h2
          · exact (List.mem_map).mpr ⟨x, hx, hxk⟩
        simp [historyInsert, h1, h2, ih hrest hk']

theorem ascending_obsKeys_nodup {h : List PricePoint}
    (ha : AscendingSeries h) : (obsKeys h).Nodup := by
  rw [obsKeys, List.nodup_iff_sublist]
  intro a hsub
  have hpw : (h.map PricePoint.observedAt).Pairwise (· < ·) :=
    (List.pairwise_map).mpr ha
  have := hpw.sublist hsub
  simp [List.pairwise_cons] at this

/-- **C1.** History append is idempotent and first-write-wins: with the
store's ascending-series invariant, appending a second point with the same
`(productId, observedAt)` key — price equal or different — changes nothing,
so exactly one point is stored for the key and its price is the first
written one. -/
theorem history_append_idempotent (s : HistoryStore) (p p' : PricePoint)
    (hasc : AscendingSeries (s p.productId))
    (hpid : p'.productId = p.productId)
    (hobs : p'.observedAt = p.observedAt) :
    historyAppend (historyAppend s p) p' = historyAppend s p ∧
    countKey (historyAppend (historyAppend s p) p' p.productId) p.observedAt = 1 ∧
    priceAt (historyAppend (historyAppend s p) p' p.productId) p.observedAt =
      priceAt (historyAppend s p p.productId) p.observedAt := by
  have hstep : ∀ pid, historyAppend (historyAppend s p) p' pid = historyAppend s p pid := by
    intro pid
    by_cases hp : pid = p.productId
    · subst hp
      simp only [historyAppend, hpid, if_pos rfl]
      exact historyInsert_of_key_mem (historyInsert_ascending p hasc)
        (by rw [hobs]; exact key_mem_historyInsert (s p.productId) p)
    · simp [historyAppend, hp, hpid]
  have heq : historyAppend (historyAppend s p) p' = historyAppend s p :=
    funext hstep
  refine ⟨heq, ?_, ?_⟩
  · rw [hstep]
    have h1 : historyAppend s p p.productId = historyInsert (s p.productId) p := by
      simp [historyAppend]
    rw [h1, countKey]
    exact List.count_eq_one_of_mem
      (ascending_obsKeys_nodup (historyInsert_ascending p hasc))
      (key_mem_historyInsert (s p.productId) p)
  · rw [hstep]

/-- Witness for **C1** at a concrete store and pair of conflicting points:
the second write (same key, different price 999) changes nothing and the
stored price stays 5000. -/
theorem history_append_idempotent_witness :
    AscendingSeries ([] : List PricePoint) ∧
    countKey
      (historyAppend
        (historyAppend (fun _ => []) ⟨"B08", 10, 5000, "INR"⟩)
        ⟨"B08", 10, 999, "INR"⟩ "B08") 10 = 1 ∧
    priceAt
      (historyAppend
        (historyAppend (fun _ => []) ⟨"B08", 10, 5000, "INR"⟩)
        ⟨"B08", 10, 999, "INR"⟩ "B08") 10 = some 5000 := by
  have h := history_append_idempotent (fun _ => [])
    ⟨"B08", 10, 5000, "INR"⟩ ⟨"B08", 10, 999, "INR"⟩
    (by simp [AscendingSeries]) rfl rfl
  refine ⟨by simp [AscendingSeries], h.2.1, ?_⟩
  rw [h.2.2]
  simp [historyAppend, historyInsert, priceAt, List.find?]

/-- Modelled from the spec: an `Alert` record (§3, §4.6); the Alert
Evaluator itself is missing from `src/` (backend not in the tree).
`wasReset` renders "the alert was reset since the last fire". -/
structure Alert where
  alertId : String
  userId : String
  productId : String
  targetPrice : Nat
  active : Bool
  lastFiredPrice : Option Nat
  wasReset : Bool
deriving DecidableEq, Repr

/-- A decided notification (spec §4.6 `FireIntent`). -/
structure FireIntent where
  alertId : String
  userId : String
  price : Nat
  observedAt : Nat
deriving DecidableEq, Repr

/-- Modelled from the spec: the firing condition of §4.6 — active alert on
the product, observed price at or below target, and (`lastFiredPrice`
unset OR strictly lower price OR reset since last fire). -/
def shouldFire (a : Alert) (pid : String) (price : Nat) : Bool :=
  a.active && a.productId == pid && price ≤ a.targetPrice &&
    (match a.lastFiredPrice with
     | none => true
     | some lp => price < lp || a.wasReset)

/-- The alerts selected to fire on an observation. -/
def fireSet (alerts : List Alert) (pid : String) (price : Nat) : List Alert :=
  alerts.filter (fun a => shouldFire a pid price)

/-- Modelled from the spec: `evaluate(productId, newPoint) -> []FireIntent`
(§4.6), emitting one intent per qualifying active alert. -/
def evaluateAlerts (alerts : List Alert) (pid : String) (pt : PricePoint) :
    List FireIntent :=
  (fireSet alerts pid pt.price).map
    (fun a => ⟨a.alertId, a.userId, pt.price, pt.observedAt⟩)

/-- The demonstration alert of the spec's end-to-end scenario (§8):
target 4500, already fired at 4300, not reset. -/
def scenarioAlert : Alert :=
  ⟨"a1", "u1", "B08", 4500, true, some 4300, false⟩

/-- **C2.** `evaluate` emits a `FireIntent` for an alert exactly when the
alert is active on the product, the observed price is at or below target,
and `lastFiredPrice` is unset, or the price is strictly below it, or the
alert was reset since the last fire; in particular the scenario alert
(target 4500, last fired 4300) does not fire at an observed 4400. -/
theorem evaluate_fires_iff (alerts : List Alert) (pid : String)
    (price : Nat) (a : Alert) :
    (a ∈ fireSet alerts pid price ↔
      a ∈ alerts ∧ a.active = true ∧ a.productId = pid ∧
        price ≤ a.targetPrice ∧
        (a.lastFiredPrice = none ∨
          (∃ lp, a.lastFiredPrice = some lp ∧ price < lp) ∨
          a.wasReset = true)) ∧
    evaluateAlerts [scenarioAlert] "B08" ⟨"B08", 20, 4400, "INR"⟩ = [] := by
  constructor
  · rw [fireSet, List.mem_filter]
    constructor
    · rintro ⟨hmem, hf⟩
      rw [shouldFire] at hf
      simp only [Bool.and_eq_true, beq_iff_eq, decide_eq_true_eq] at hf
      obtain ⟨⟨⟨hact, hpid⟩, hle⟩, hlast⟩ := hf
      refine ⟨hmem, hact, hpid, hle, ?_⟩
      cases hlp : a.lastFiredPrice with
      | none => exact Or.inl rfl
      | some lp =>
        rw [hlp] at hlast
        simp only [Bool.or_eq_true, decide_eq_true_eq] at hlast
        rcases hlast with h | h
        · exact Or.inr (Or.inl ⟨lp, rfl, h⟩)
        · exact Or.inr (Or.inr h)
    · rintro ⟨hmem, hact, hpid, hle, hlast⟩
      refine ⟨hmem, ?_⟩
      rw [shouldFire]
      simp only [Bool.and_eq_true, beq_iff_eq, decide_eq_true_eq]
      refine ⟨⟨⟨hact, hpid⟩, hle⟩, ?_⟩
      rcases hlast with h | ⟨lp, hlp, hlt⟩ | h
      · rw [h]
      · rw [hlp]
        simp [hlt]
      · cases hlp : a.lastFiredPrice with
        | none => rfl
        | some lp => simp [h]
  · decide

/-- Evaluate a sequence of observed prices in order, per §4.6: on a fire
the evaluator atomically records `lastFiredPrice` (and the reset flag is
consumed).  Returns the final alert state and the prices that fired. -/
def runPrices (a : Alert) (pid : String) : List Nat → Alert × List Nat
  | [] => (a, [])
  | price :: rest =>
    if shouldFire a pid price then
      let tail :=
        runPrices { a with lastFiredPrice := some price, wasReset := false } pid rest
      (tail.1, price :: tail.2)
    else
      runPrices a pid rest

/-- The fresh alert of the spec's monotonicity example (§8): target 100,
never fired. -/
def monotoneAlert : Alert :=
  ⟨"a2", "u2", "P", 100, true, none, false⟩

theorem runPrices_fired_lt {ps : List Nat} {a : Alert} {pid : String}
    {cap : Nat} (hlast : a.lastFiredPrice = some cap)
    (hreset : a.wasReset = false) :
    ∀ q ∈ (runPrices a pid ps).2, q < cap := by
  induction ps generalizing a cap with
  | nil => simp [runPrices]
  | cons price rest ih =>
    intro q hq
    rw [runPrices] at hq
    by_cases hf : shouldFire a pid price
    · rw [if_pos hf] at hq
      have hlt : price < cap := by
        simp only [shouldFire, hlast, hreset, Bool.or_false, Bool.and_eq_true,
          decide_eq_true_eq] at hf
        exact hf.2
      have hq2 : q ∈ price ::
          (runPrices { a with lastFiredPrice := some price, wasReset := false }
            pid rest).2 := hq
      rcases List.mem_cons.mp hq2 with h | h
      · omega
      · exact lt_trans (ih rfl rfl q h) hlt
    · rw [if_neg hf] at hq
      exact ih hlast hreset q hq

/-- **C3.** Alert firing is monotone: along any evaluated price sequence
the fired prices are strictly decreasing (no external reset occurs inside
a run), so once fired at P the alert never fires again at a price ≥ P;
and the spec's example — target 100, observations [120, 90, 95, 80] —
fires exactly at 90 and 80. -/
theorem alert_firing_monotone (a : Alert) (pid : String) (ps : List Nat) :
    List.Chain' (fun x y => y < x) (runPrices a pid ps).2 ∧
    (runPrices monotoneAlert "P" [120, 90, 95, 80]).2 = [90, 80] := by
  refine ⟨?_, by decide⟩
  induction ps generalizing a with
  | nil => simp [runPrices]
  | cons price rest ih =>
    rw [runPrices]
    by_cases hf : shouldFire a pid price
    · rw [if_pos hf]
      show List.Chain' (fun x y => y < x) (price ::
        (runPrices { a with lastFiredPrice := some price, wasReset := false }
          pid rest).2)
      rw [List.chain'_cons']
      constructor
      · intro y hy
        exact runPrices_fired_lt rfl rfl y (List.mem_of_mem_head? hy)
      · exact ih _
    · rw [if_neg hf]
      exact ih a

/-- Modelled from the spec: scheduler backoff configuration (§4.5) — the
Scheduler/Orchestrator is missing from `src/` (backend not in the tree).
`base` is the base refresh interval, `cap` the backoff ceiling. -/
structure BackoffConfig where
  base : Nat
  cap : Nat
deriving DecidableEq, Repr

/-- Modelled from the spec: per-product scheduler bookkeeping (§3, §4.5). -/
structure ProductSched where
  failureStreak : Nat
deriving DecidableEq, Repr

/-- Modelled from the spec: `effectiveInterval` grows exponentially with
`failureStreak` and is capped (§4.5). -/
def effectiveInterval (cfg : BackoffConfig) (streak : Nat) : Nat :=
  min (cfg.base * 2 ^ streak) cfg.cap

/-- Modelled from the spec: a `Failed` run increments `failureStreak` (§4.5). -/
def onFailure (st : ProductSched) : ProductSched :=
  { failureStreak := st.failureStreak + 1 }

/-- Modelled from the spec: a `Succeeded` run resets `failureStreak` to 0 (§4.5). -/
def onSuccess (_st : ProductSched) : ProductSched :=
  { failureStreak := 0 }

theorem effectiveInterval_strict_mono (cfg : BackoffConfig)
    (st : ProductSched) (hbase : 0 < cfg.base)
    (hlt : effectiveInterval cfg st.failureStreak < cfg.cap) :
    effectiveInterval cfg st.failureStreak <
      effectiveInterval cfg (onFailure st).failureStreak := by
  simp only [effectiveInterval, onFailure] at hlt ⊢
  have h1 : cfg.base * 2 ^ st.failureStreak < cfg.base * 2 ^ (st.failureStreak + 1) := by
    have h2 : (2 : Nat) ^ st.failureStreak < 2 ^ (st.failureStreak + 1) :=
      Nat.pow_lt_pow_succ (by omega)
    exact mul_lt_mul_of_pos_left h2 hbase
  omega

/-- **C7.** Scheduler backoff: from a fresh product, three consecutive
transient failures strictly increase `effectiveInterval` at every step
(each value staying at or below the cap), and a subsequent `Succeeded`
run resets `failureStreak` to 0 and the interval to the base interval. -/
theorem backoff_growth_and_reset (cfg : BackoffConfig) (st : ProductSched)
    (hbase : 0 < cfg.base) (hcap : cfg.base * 8 ≤ cfg.cap)
    (hfresh : st.failureStreak = 0) :
    effectiveInterval cfg st.failureStreak <
        effectiveInterval cfg (onFailure st).failureStreak ∧
    effectiveInterval cfg (onFailure st).failureStreak <
        effectiveInterval cfg (onFailure (onFailure st)).failureStreak ∧
    effectiveInterval cfg (onFailure (onFailure st)).failureStreak <
        effectiveInterval cfg (onFailure (onFailure (onFailure st))).failureStreak ∧
    effectiveInterval cfg (onFailure (onFailure (onFailure st))).failureStreak ≤ cfg.cap ∧
    (onSuccess (onFailure (onFailure (onFailure st)))).failureStreak = 0 ∧
    effectiveInterval cfg
        (onSuccess (onFailure (onFailure (onFailure st)))).failureStreak = cfg.base := by
  have f1 : (onFailure st).failureStreak = 1 := by
    simp [onFailure, hfresh]
  have f2 : (onFailure (onFailure st)).failureStreak = 2 := by
    simp [onFailure, hfresh]
  have f3 : (onFailure (onFailure (onFailure st))).failureStreak = 3 := by
    simp [onFailure, hfresh]
  have s0 : (onSuccess (onFailure (onFailure (onFailure st)))).failureStreak = 0 := rfl
  rw [hfresh, f1, f2, f3, s0]
  have e0 : effectiveInterval cfg 0 = min cfg.base cfg.cap := by
    simp [effectiveInterval]
  have e1 : effectiveInterval cfg 1 = min (cfg.base * 2) cfg.cap := by
    norm_num [effectiveInterval]
  have e2 : effectiveInterval cfg 2 = min (cfg.base * 4) cfg.cap := by
    norm_num [effectiveInterval]
  have e3 : effectiveInterval cfg 3 = min (cfg.base * 8) cfg.cap := by
    norm_num [effectiveInterval]
  rw [e0, e1, e2, e3]
  refine ⟨by omega, by omega, by omega, by omega, rfl, by omega⟩

/-- Witness for **C7** at base interval 30 and cap 480: the first three
failure intervals are 30 < 60 < 120 < 240 and success restores 30. -/
theorem backoff_growth_and_reset_witness :
    0 < (30 : Nat) ∧ 30 * 8 ≤ (480 : Nat) ∧
    effectiveInterval ⟨30, 480⟩ (0 : Nat) <
      effectiveInterval ⟨30, 480⟩ (onFailure ⟨0⟩).failureStreak ∧
    effectiveInterval ⟨30, 480⟩
      (onSuccess (onFailure (onFailure (onFailure ⟨0⟩)))).failureStreak = 30 := by
  have h := backoff_growth_and_reset ⟨30, 480⟩ ⟨0⟩ (by decide) (by decide) rfl
  exact ⟨by decide, by decide, h.1, h.2.2.2.2.2⟩

/-- Modelled from the spec: the scheduler's set of productIds with a
refresh run currently in flight (§4.5, §5); the Scheduler/Orchestrator is
missing from `src/`. -/
structure SchedulerState where
  inFlight : List String
deriving DecidableEq, Repr

/-- Scheduler events: a product becomes due, or its in-flight run ends. -/
inductive SchedulerEvent where
  | dueCheck (pid : String)
  | finish (pid : String)
deriving DecidableEq, Repr

/-- Modelled from the spec: one scheduler transition (§4.5, §5) — a
due-check for a product already in flight is skipped (state unchanged,
nothing queued); otherwise a run starts; a finished run leaves the
in-flight set. -/
def schedulerStep (s : SchedulerState) : SchedulerEvent → SchedulerState
  | .dueCheck pid =>
    if pid ∈ s.inFlight then s else { inFlight := pid :: s.inFlight }
  | .finish pid => { inFlight := s.inFlight.erase pid }

/-- Run the scheduler from the idle initial state over a trace of events. -/
def schedulerRun (events : List SchedulerEvent) : SchedulerState :=
  events.foldl schedulerStep ⟨[]⟩

theorem schedulerStep_nodup {s : SchedulerState} (e : SchedulerEvent)
    (h : s.inFlight.Nodup) : (schedulerStep s e).inFlight.Nodup := by
  cases e with
  | dueCheck pid =>
    by_cases hmem : pid ∈ s.inFlight
    · simpa [schedulerStep, hmem] using h
    · simp [schedulerStep, hmem, h]
  | finish pid => exact h.erase pid

theorem schedulerRun_nodup (events : List SchedulerEvent) :
    (schedulerRun events).inFlight.Nodup := by
  rw [schedulerRun]
  have h : ∀ (s : SchedulerState), s.inFlight.Nodup →
      (events.foldl schedulerStep s).inFlight.Nodup := by
    induction events with
    | nil => intro s hs; exact hs
    | cons e rest ih =>
      intro s hs
      exact ih _ (schedulerStep_nodup e hs)
  exact h ⟨[]⟩ (by simp)

/-- **C8.** Single in-flight run per product: a due-check for a product
already in flight leaves the scheduler unchanged (skipped, not queued),
and along any event trace from the idle state a product never has two
runs in flight at once. -/
theorem single_in_flight (s : SchedulerState) (pid : String)
    (events : List SchedulerEvent) (hmem : pid ∈ s.inFlight) :
    schedulerStep s (.dueCheck pid) = s ∧
    (schedulerRun events).inFlight.count pid ≤ 1 := by
  refine ⟨by simp [schedulerStep, hmem], ?_⟩
  exact List.nodup_iff_count_le_one.mp (schedulerRun_nodup events) pid

/-- Witness for **C8**: with product "B08" in flight, its due-check is a
no-op, and the trace [due "B08", due "B08", finish "B08", due "B08"]
never has the product in flight twice. -/
theorem single_in_flight_witness :
    "B08" ∈ (SchedulerState.mk ["B08"]).inFlight ∧
    schedulerStep ⟨["B08"]⟩ (.dueCheck "B08") = ⟨["B08"]⟩ ∧
    (schedulerRun [.dueCheck "B08", .dueCheck "B08", .finish "B08",
      .dueCheck "B08"]).inFlight.count "B08" ≤ 1 := by
  have h := single_in_flight ⟨["B08"]⟩ "B08"
    [.dueCheck "B08", .dueCheck "B08", .finish "B08", .dueCheck "B08"]
    (by decide)
  exact ⟨by decide, h.1, h.2⟩

/-- Availability of a listing (spec §3). -/
inductive Availability where
  | inStock
  | outOfStock
  | unknownAvail
deriving DecidableEq, Repr

/-- Modelled from the spec: an `ExtractedListing` as consumed by the
Matcher (§3, §4.3) — the Matcher is backend code absent from `src/`.
The title is kept as its normalized token list; the price is in integer
minor units as §3 mandates for the engine. -/
structure Listing where
  titleTokens : List String
  brand : Option String
  price : Nat
  availability : Availability
deriving DecidableEq, Repr

/-- A candidate listing from the cross-platform search (spec §6). -/
structure Candidate where
  platform : String
  url : String
  listing : Listing
deriving DecidableEq, Repr

/-- A ranked candidate carrying its match score (spec §3, §4.3). -/
structure ScoredCandidate where
  cand : Candidate
  matchScore : ℚ
deriving DecidableEq, Repr

/-- Modelled from the spec: normalized title token-overlap similarity
(§4.3) — shared distinct tokens over the larger distinct-token count. -/
def titleSim (a b : List String) : ℚ :=
  ((a.dedup.filter (fun t => b.contains t)).length : ℚ) /
    ((max a.dedup.length b.dedup.length : Nat) : ℚ)

/-- Modelled from the spec: brand equality bonus (§4.3). -/
def brandScore (canon cand : Listing) : ℚ :=
  match canon.brand, cand.brand with
  | some x, some y => if x = y then 1 else 0
  | _, _ => 0

/-- Modelled from the spec: price-band plausibility (§4.3) — full weight
within ±60% of the canonical price, sharply downweighted (0) outside. -/
def priceBand (canon cand : Listing) : ℚ :=
  if cand.price * 10 ≤ canon.price * 16 ∧ canon.price * 4 ≤ cand.price * 10 then 1
  else 0

/-- Modelled from the spec: the combined match score (§4.3) — weights
0.5 title similarity, 0.2 brand bonus, 0.3 price band. -/
def candidateScore (canon cand : Listing) : ℚ :=
  1 / 2 * titleSim canon.titleTokens cand.titleTokens +
    1 / 5 * brandScore canon cand + 3 / 10 * priceBand canon cand

theorem titleSim_bounds (a b : List String) :
    0 ≤ titleSim a b ∧ titleSim a b ≤ 1 := by
  rw [titleSim]
  constructor
  · exact div_nonneg (Nat.cast_nonneg _) (Nat.cast_nonneg _)
  · have hle : (a.dedup.filter (fun t => b.contains t)).length ≤
        max a.dedup.length b.dedup.length :=
      le_trans (List.length_filter_le _ _) (le_max_left _ _)
    by_cases hz : max a.dedup.length b.dedup.length = 0
    · have h0 : (a.dedup.filter (fun t => b.contains t)).length = 0 := by omega
      rw [h0, hz]
      norm_num
    · have hpos : (0 : ℚ) < ((max a.dedup.length b.dedup.length : Nat) : ℚ) := by
        exact_mod_cast Nat.pos_of_ne_zero hz
      rw [div_le_one hpos]
      exact_mod_cast hle

theorem brandScore_bounds (canon cand : Listing) :
    0 ≤ brandScore canon cand ∧ brandScore canon cand ≤ 1 := by
  rw [brandScore]
  rcases canon.brand with _ | x <;> rcases cand.brand with _ | y <;>
    simp <;> split <;> norm_num

theorem priceBand_bounds (canon cand : Listing) :
    0 ≤ priceBand canon cand ∧ priceBand canon cand ≤ 1 := by
  rw [priceBand]
  split <;> norm_num

theorem candidateScore_bounds (canon cand : Listing) :
    0 ≤ candidateScore canon cand ∧ candidateScore canon cand ≤ 1 := by
  obtain ⟨t0, t1⟩ := titleSim_bounds canon.titleTokens cand.titleTokens
  obtain ⟨b0, b1⟩ := brandScore_bounds canon cand
  obtain ⟨p0, p1⟩ := priceBand_bounds canon cand
  rw [candidateScore]
  constructor <;> nlinarith

/-- Modelled from the spec: descending insertion of a scored candidate
into a ranked list (§4.3 "sorted descending by matchScore"). -/
def insertRanked (c : ScoredCandidate) : List ScoredCandidate → List ScoredCandidate
  | [] => [c]
  | d :: ds =>
    if d.matchScore < c.matchScore then c :: d :: ds else d :: insertRanked c ds

/-- Sort candidates into descending match-score order (spec §4.3). -/
def rankSort : List ScoredCandidate → List ScoredCandidate
  | [] => []
  | c :: cs => insertRanked c (rankSort cs)

theorem mem_insertRanked {c x : ScoredCandidate} {l : List ScoredCandidate}
    (hx : x ∈ insertRanked c l) : x = c ∨ x ∈ l := by
  induction l with
  | nil =>
    simp [insertRanked] at hx
    exact Or.inl hx
  | cons d ds ih =>
    rw [insertRanked] at hx
    by_cases h1 : d.matchScore < c.matchScore
    · rw [if_pos h1] at hx
      rcases List.mem_cons.mp hx with h | h
      · exact Or.inl h
      · exact Or.inr h
    · rw [if_neg h1] at hx
      rcases List.mem_cons.mp hx with h | h
      · exact Or.inr (by simp [h])
      · rcases ih h with h2 | h2
        · exact Or.inl h2
        · exact Or.inr (by simp [h2])

theorem mem_rankSort {x : ScoredCandidate} {l : List ScoredCandidate}
    (hx : x ∈ rankSort l) : x ∈ l := by
  induction l with
  | nil => simpa [rankSort] using hx
  | cons c cs ih =>
    rw [rankSort] at hx
    rcases mem_insertRanked hx with h | h
    · simp [h]
    · simp [ih h]

theorem pairwise_insertRanked {c : ScoredCandidate} {l : List ScoredCandidate}
    (hl : l.Pairwise (fun x y => y.matchScore ≤ x.matchScore)) :
    (insertRanked c l).Pairwise (fun x y => y.matchScore ≤ x.matchScore) := by
  induction l with
  | nil => simp [insertRanked]
  | cons d ds ih =>
    rw [List.pairwise_cons] at hl
    obtain ⟨hd, hds⟩ := hl
    rw [insertRanked]
    by_cases h1 : d.matchScore < c.matchScore
    · rw [if_pos h1, List.pairwise_cons]
      constructor
      · intro x hx
        rcases List.mem_cons.mp hx with h | h
        · rw [h]
          exact le_of_lt h1
        · exact le_trans (hd x h) (le_of_lt h1)
      · rw [List.pairwise_cons]
        exact ⟨hd, hds⟩
    · rw [if_neg h1, List.pairwise_cons]
      constructor
      · intro x hx
        rcases mem_insertRanked hx with h | h
        · rw [h]
          exact le_of_not_lt h1
        · exact hd x h
      · exact ih hds

theorem pairwise_rankSort (l : List ScoredCandidate) :
    (rankSort l).Pairwise (fun x y => y.matchScore ≤ x.matchScore) := by
  induction l with
  | nil => simp [rankSort]
  | cons c cs ih =>
    rw [rankSort]
    exact pairwise_insertRanked ih

/-- The absolute score floor of §4.3, 0.35. -/
def scoreFloor : ℚ := 7 / 20

/-- Modelled from the spec: `match(canonical, candidates)` (§4.3) — score
each candidate, drop those under the 0.35 floor, sort descending. -/
def matchRank (canon : Listing) (cands : List Candidate) :
    List ScoredCandidate :=
  rankSort
    (((cands.map (fun c => ⟨c, candidateScore canon c.listing⟩)).filter
      (fun sc => decide (scoreFloor ≤ sc.matchScore))))

/-- **C4.** The Matcher's output is sorted in descending match-score
order, every emitted score lies in [0,1], and no candidate scoring below
the absolute floor 0.35 appears in the output. -/
theorem matcher_sorted_and_floor (canon : Listing) (cands : List Candidate) :
    (matchRank canon cands).Pairwise (fun x y => y.matchScore ≤ x.matchScore) ∧
    (matchRank canon cands).all
      (fun sc => decide ((0 : ℚ) ≤ sc.matchScore) &&
        decide (sc.matchScore ≤ 1) && decide (scoreFloor ≤ sc.matchScore)) = true := by
  constructor
  · exact pairwise_rankSort _
  · rw [List.all_eq_true]
    intro sc hsc
    have h1 := mem_rankSort hsc
    rw [List.mem_filter] at h1
    obtain ⟨hmap, hfloor⟩ := h1
    rw [List.mem_map] at hmap
    obtain ⟨c, _, hc⟩ := hmap
    have hb := candidateScore_bounds canon c.listing
    have hs : sc.matchScore = candidateScore canon c.listing := by
      rw [← hc]
    simp only [Bool.and_eq_true, decide_eq_true_eq]
    refine ⟨⟨?_, ?_⟩, of_decide_eq_true hfloor⟩
    · rw [hs]
      exact hb.1
    · rw [hs]
      exact hb.2

/-- A stored `priceHistory` entry of a Firestore product document
(`PriceHistoryEntry` of `src/frontend/src/types.ts`); `date` is a
Firestore Timestamp modelled as a numeric instant, `none` when the field
is missing or not a Timestamp. -/
structure RawHistoryEntry where
  date : Option Nat
  price : ℚ
deriving DecidableEq, Repr

/-- `PriceDataPoint` of `src/frontend/src/types.ts`: date rendered for
components (the injective ISO formatting is dropped), price as stored. -/
structure PriceDataPoint where
  date : Nat
  price : ℚ
deriving DecidableEq, Repr

/-- `transformPriceHistory` of `src/frontend/src/lib/dataTransform.ts`:
maps each stored entry to a `PriceDataPoint`, substituting the current
time (`new Date()`, the `now` parameter) for a missing date. -/
def transformPriceHistory (now : Nat) (history : List RawHistoryEntry) :
    List PriceDataPoint :=
  history.map (fun e => ⟨e.date.getD now, e.price⟩)

/-- A Firestore `products/{id}` document as read by the frontend. -/
structure ProductDoc where
  priceHistory : List RawHistoryEntry
  currentPrice : ℚ
deriving DecidableEq, Repr

/-- `getPriceHistory` of `src/frontend/src/services/productService.ts`:
empty when the product document does not exist, otherwise the transform
of its stored `priceHistory`. -/
def getPriceHistory (now : Nat) (products : String → Option ProductDoc)
    (productId : String) : List PriceDataPoint :=
  match products productId with
  | none => []
  | some d => transformPriceHistory now d.priceHistory

/-- Modelled from the spec: `range(productId, from, to)` of the History
Store Adapter (§4.4), the stored points with `observedAt` in the window. -/
def rangeQuery (s : HistoryStore) (productId : String) (lo hi : Nat) :
    List PricePoint :=
  (s productId).filter (fun q => decide (lo ≤ q.observedAt) && decide (q.observedAt ≤ hi))

/-- **C5.** Under the store's invariant the history read (`range`) is
ascending in `observedAt` with no duplicate keys, and the frontend read
path (`getPriceHistory` ∘ `transformPriceHistory`) returns one output
entry per stored entry, prices in stored order. -/
theorem history_read_path (s : HistoryStore) (productId : String) (lo hi : Nat)
    (products : String → Option ProductDoc) (pid2 : String) (d : ProductDoc)
    (now : Nat) (hasc : AscendingSeries (s productId))
    (hdoc : products pid2 = some d) :
    AscendingSeries (rangeQuery s productId lo hi) ∧
    (obsKeys (rangeQuery s productId lo hi)).Nodup ∧
    (getPriceHistory now products pid2).length = d.priceHistory.length ∧
    (getPriceHistory now products pid2).map (fun e => e.price) =
      d.priceHistory.map (fun e => e.price) := by
  have h1 : AscendingSeries (rangeQuery s productId lo hi) := by
    rw [AscendingSeries] at hasc ⊢
    exact hasc.filter _
  refine ⟨h1, ascending_obsKeys_nodup h1, ?_, ?_⟩
  · simp [getPriceHistory, hdoc, transformPriceHistory]
  · simp [getPriceHistory, hdoc, transformPriceHistory]

/-- Witness for **C5** at a concrete two-point store and one-entry
product document. -/
theorem history_read_path_witness :
    AscendingSeries ((fun _ => [⟨"B08", 1, 5000, "INR"⟩, ⟨"B08", 2, 4300, "INR"⟩] :
      HistoryStore) "B08") ∧
    (obsKeys (rangeQuery
      (fun _ => [⟨"B08", 1, 5000, "INR"⟩, ⟨"B08", 2, 4300, "INR"⟩]) "B08" 0 9)).Nodup ∧
    (getPriceHistory 7 (fun _ => some ⟨[⟨some 5, 100⟩], 100⟩) "B08").length = 1 := by
  have h := history_read_path
    (fun _ => [⟨"B08", 1, 5000, "INR"⟩, ⟨"B08", 2, 4300, "INR"⟩]) "B08" 0 9
    (fun _ => some ⟨[⟨some 5, 100⟩], 100⟩) "B08" ⟨[⟨some 5, 100⟩], 100⟩ 7
    (by decide) rfl
  exact ⟨by decide, h.2.1, h.2.2.1⟩

/-- A Firestore `users/{id}` document; `trackedProducts` is `none` when
the field is absent (the code guards it with optional chaining). -/
structure UserDoc where
  trackedProducts : Option (List String)
deriving DecidableEq, Repr

/-- A Firestore `alerts` document, as written by `setPriceAlert`
(`src/frontend/src/services/productService.ts`); `id` models the
auto-generated document id. -/
structure AlertDoc where
  id : Nat
  productId : String
  userId : String
  targetPrice : ℚ
  email : String
  isActive : Bool
deriving DecidableEq, Repr

/-- The Firestore state read by `getProductDetails`. -/
structure FirestoreDb where
  users : String → Option UserDoc
  products : String → Option ProductDoc
  alerts : List AlertDoc

/-- The product details assembled by `getProductDetails` (via
`transformProductFromFirestore`); only the fields the claims mention. -/
structure ProductDetails where
  doc : ProductDoc
  alertEnabled : Bool
  targetPrice : Option ℚ
deriving DecidableEq, Repr

/-- `getProductDetails` of `src/frontend/src/services/productService.ts`:
null unless the user document exists, tracks the product, and the product
document exists; `alertEnabled`/`targetPrice` come from the user's first
alert on the product (`targetPrice || null` maps a zero target to null). -/
def getProductDetails (db : FirestoreDb) (productId userId : String) :
    Option ProductDetails :=
  match db.users userId with
  | none => none
  | some u =>
    if (u.trackedProducts.getD []).contains productId then
      match db.products productId with
      | none => none
      | some pdoc =>
        let alertInfo :=
          db.alerts.find? (fun a => a.productId == productId && a.userId == userId)
        some
          { doc := pdoc
            alertEnabled := alertInfo.isSome
            targetPrice :=
              match alertInfo with
              | none => none
              | some a => if a.targetPrice = 0 then none else some a.targetPrice }
    else none

/-- **C9.** `getProductDetails` returns a value exactly when the user
document exists, its `trackedProducts` contain the productId, and the
product document exists — so it is null in each missing case and never
returns data for a product the user is not tracking. -/
theorem getProductDetails_some_iff (db : FirestoreDb) (productId userId : String) :
    (getProductDetails db productId userId).isSome = true ↔
      (∃ u, db.users userId = some u ∧
        productId ∈ u.trackedProducts.getD []) ∧
      ∃ pdoc, db.products productId = some pdoc := by
  cases hu : db.users userId with
  | none => simp [getProductDetails, hu]
  | some u =>
    by_cases htr : productId ∈ u.trackedProducts.getD []
    · cases hp : db.products productId with
      | none => simp [getProductDetails, hu, hp, List.contains, htr]
      | some pdoc => simp [getProductDetails, hu, hp, List.contains, htr]
    · simp [getProductDetails, hu, List.contains, htr]

/-- The `alerts` collection together with the next auto-generated
document id (`doc(collection(db, "alerts"))` mints a fresh ref). -/
structure AlertsState where
  nextId : Nat
  docs : List AlertDoc
deriving DecidableEq, Repr

/-- `setPriceAlert` of `src/frontend/src/services/productService.ts`:
always `setDoc`s a brand-new document (fresh auto-id), `isActive: true`;
it never updates an existing alert. -/
def setPriceAlert (st : AlertsState) (productId userId : String)
    (targetPrice : ℚ) (email : String) : AlertsState :=
  { nextId := st.nextId + 1
    docs := st.docs ++ [⟨st.nextId, productId, userId, targetPrice, email, true⟩] }

/-- Delete the first document satisfying the predicate, if any (the code
deletes `querySnapshot.docs[0]` only when the query is non-empty). -/
def removeFirstAlert (p : AlertDoc → Bool) : List AlertDoc → List AlertDoc
  | [] => []
  | d :: ds => if p d then ds else d :: removeFirstAlert p ds

/-- Whether an alert document matches `removePriceAlert`'s query
(`productId ==` and `userId ==`). -/
def alertMatches (productId userId : String) (d : AlertDoc) : Bool :=
  d.productId == productId && d.userId == userId

/-- `removePriceAlert` of `src/frontend/src/services/productService.ts`:
deletes at most the first alert document matching (productId, userId). -/
def removePriceAlert (st : AlertsState) (productId userId : String) : AlertsState :=
  { st with docs := removeFirstAlert (alertMatches productId userId) st.docs }

/-- The user's alert documents on a product. -/
def matchingAlerts (st : AlertsState) (productId userId : String) : List AlertDoc :=
  st.docs.filter (alertMatches productId userId)

/-- The user's active alert documents on a product. -/
def activeAlerts (st : AlertsState) (productId userId : String) : List AlertDoc :=
  st.docs.filter (fun d => alertMatches productId userId d && d.isActive)

theorem filter_removeFirstAlert_ge (p q : AlertDoc → Bool) (l : List AlertDoc) :
    (l.filter q).length ≤ ((removeFirstAlert p l).filter q).length + 1 := by
  induction l with
  | nil => simp [removeFirstAlert]
  | cons d ds ih =>
    rw [removeFirstAlert]
    by_cases hp : p d
    · rw [if_pos hp, List.filter_cons]
      by_cases hq : q d
      · simp [hq]
      · simp [hq]
    · rw [if_neg hp, List.filter_cons, List.filter_cons]
      by_cases hq : q d
      · simp [hq]
        omega
      · simp [hq]
        exact ih

theorem filter_removeFirstAlert_exact (p : AlertDoc → Bool) (l : List AlertDoc)
    (hex : ∃ d ∈ l, p d = true) :
    ((removeFirstAlert p l).filter p).length + 1 = (l.filter p).length := by
  induction l with
  | nil => simp at hex
  | cons d ds ih =>
    rw [removeFirstAlert]
    by_cases hp : p d
    · rw [if_pos hp, List.filter_cons, if_pos hp]
      simp
    · rw [if_neg hp, List.filter_cons, List.filter_cons, if_neg hp, if_neg hp]
      apply ih
      rcases hex with ⟨d', hd', hpd'⟩
      rcases List.mem_cons.mp hd' with h | h
      · exact absurd (h ▸ hpd') hp
      · exact ⟨d', h, hpd'⟩

/-- **C10.** `setPriceAlert` always creates a new alert document (two
calls add two matching documents) and `removePriceAlert` deletes at most
one, so set-set-remove leaves one more matching document than before —
in particular at least one active alert (remove does not invert the
repeated set). -/
theorem set_set_remove_leaves_alert (st : AlertsState) (productId userId : String)
    (t1 t2 : ℚ) (e1 e2 : String) :
    (matchingAlerts (setPriceAlert (setPriceAlert st productId userId t1 e1)
        productId userId t2 e2) productId userId).length =
      (matchingAlerts st productId userId).length + 2 ∧
    (matchingAlerts (removePriceAlert (setPriceAlert (setPriceAlert st productId
        userId t1 e1) productId userId t2 e2) productId userId)
        productId userId).length =
      (matchingAlerts st productId userId).length + 1 ∧
    1 ≤ (activeAlerts (removePriceAlert (setPriceAlert (setPriceAlert st productId
        userId t1 e1) productId userId t2 e2) productId userId)
        productId userId).length := by
  have hmatch : ∀ i t e, alertMatches productId userId
      ⟨i, productId, userId, t, e, true⟩ = true := by
    intro i t e
    simp [alertMatches]
  have hset2 : (matchingAlerts (setPriceAlert (setPriceAlert st productId userId
      t1 e1) productId userId t2 e2) productId userId).length =
      (matchingAlerts st productId userId).length + 2 := by
    simp [matchingAlerts, setPriceAlert, List.filter_append, hmatch]
  have hact2 : (activeAlerts (setPriceAlert (setPriceAlert st productId userId
      t1 e1) productId userId t2 e2) productId userId).length =
      (activeAlerts st productId userId).length + 2 := by
    simp [activeAlerts, setPriceAlert, List.filter_append, alertMatches]
  refine ⟨hset2, ?_, ?_⟩
  · have hex : ∃ d ∈ (setPriceAlert (setPriceAlert st productId userId t1 e1)
        productId userId t2 e2).docs, alertMatches productId userId d = true := by
      refine ⟨⟨(setPriceAlert st productId userId t1 e1).nextId, productId,
        userId, t2, e2, true⟩, ?_, hmatch _ _ _⟩
      simp [setPriceAlert]
    have h := filter_removeFirstAlert_exact (alertMatches productId userId)
      (setPriceAlert (setPriceAlert st productId userId t1 e1)
        productId userId t2 e2).docs hex
    have h2 : matchingAlerts (removePriceAlert (setPriceAlert (setPriceAlert st
        productId userId t1 e1) productId userId t2 e2) productId userId)
        productId userId =
        (removeFirstAlert (alertMatches productId userId)
          (setPriceAlert (setPriceAlert st productId userId t1 e1)
            productId userId t2 e2).docs).filter (alertMatches productId userId) := rfl
    have h3 : matchingAlerts (setPriceAlert (setPriceAlert st productId userId
        t1 e1) productId userId t2 e2) productId userId =
        (setPriceAlert (setPriceAlert st productId userId t1 e1)
          productId userId t2 e2).docs.filter (alertMatches productId userId) := rfl
    rw [h2]
    rw [h3] at hset2
    omega
  · have h := filter_removeFirstAlert_ge (alertMatches productId userId)
      (fun d => alertMatches productId userId d && d.isActive)
      (setPriceAlert (setPriceAlert st productId userId t1 e1)
        productId userId t2 e2).docs
    have h2 : activeAlerts (removePriceAlert (setPriceAlert (setPriceAlert st
        productId userId t1 e1) productId userId t2 e2) productId userId)
        productId userId =
        (removeFirstAlert (alertMatches productId userId)
          (setPriceAlert (setPriceAlert st productId userId t1 e1)
            productId userId t2 e2).docs).filter
          (fun d => alertMatches productId userId d && d.isActive) := rfl
    have h3 : activeAlerts (setPriceAlert (setPriceAlert st productId userId
        t1 e1) productId userId t2 e2) productId userId =
        (setPriceAlert (setPriceAlert st productId userId t1 e1)
          productId userId t2 e2).docs.filter
          (fun d => alertMatches productId userId d && d.isActive) := rfl
    rw [h2]
    rw [h3] at hact2
    omega

/-- Numeric value of a decimal digit character. -/
def digitVal (c : Char) : Nat := c.toNat - 48

/-- Value of a digit string, most significant first. -/
def digitsToNat (l : List Char) : Nat :=
  l.foldl (fun acc c => acc * 10 + digitVal c) 0

/-- JavaScript `parseFloat` on the plain decimal numerals produced by the
form's `type="number"` input (`src/unnamed/part_008`): longest digit
prefix, optionally a '.' and further digits; the value is exact here
(`ℚ`), `none` standing for NaN when no digit leads.  Signs and exponents
do not occur in this input and are not modelled. -/
def parseFloat (s : String) : Option ℚ :=
  let w := s.data.takeWhile Char.isDigit
  let rest := s.data.dropWhile Char.isDigit
  if w.isEmpty then none
  else
    match rest with
    | '.' :: rest2 =>
      let f := rest2.takeWhile Char.isDigit
      some ((digitsToNat w : ℚ) + (digitsToNat f : ℚ) / 10 ^ f.length)
    | _ => some ((digitsToNat w : ℚ))

/-- The target price that `handleFormSubmit` of `src/unnamed/part_008`
passes to `onSubmit`: `targetPrice ? parseFloat(targetPrice) : undefined`
(the empty string is falsy). -/
def handleFormSubmitTarget (targetPrice : String) : Option ℚ :=
  if targetPrice = "" then none else parseFloat targetPrice

/-- `mockProductData.currentPrice` carried by a `Product` record
(`currentPrice: 699.99` in the frontend service data). -/
def mockCurrentPrice : ℚ := 699.99

theorem takeWhile_digits_dot (w f : List Char)
    (hw : w.all Char.isDigit = true) :
    (w ++ '.' :: f).takeWhile Char.isDigit = w ∧
    (w ++ '.' :: f).dropWhile Char.isDigit = '.' :: f := by
  have hdot : Char.isDigit '.' = false := by decide
  induction w with
  | nil => simp [List.takeWhile_cons, List.dropWhile_cons, hdot]
  | cons c cs ih =>
    rw [List.all_cons, Bool.and_eq_true] at hw
    have h := ih hw.2
    simp [List.takeWhile_cons, List.dropWhile_cons, hw.1, h.1, h.2]

theorem takeWhile_digits_all (f : List Char) (hf : f.all Char.isDigit = true) :
    f.takeWhile Char.isDigit = f := by
  induction f with
  | nil => simp
  | cons c cs ih =>
    rw [List.all_cons, Bool.and_eq_true] at hf
    simp [List.takeWhile_cons, hf.1, ih hf.2]

/-- Counterexample to **C6**: the target price accepted from the user is
`parseFloat` of the typed string — for "449.99" the value 449.99, a
non-integer number of major currency units, not an integer count of
minor units. -/
theorem target_price_not_integer :
    handleFormSubmitTarget "449.99" = some (44999 / 100 : ℚ) ∧
    ¬ ∃ n : ℤ, (44999 / 100 : ℚ) = (n : ℚ) := by
  constructor
  · have hstr : "449.99" = String.mk (['4', '4', '9'] ++ '.' :: ['9', '9']) := by
      decide
    rw [hstr, handleFormSubmitTarget, if_neg (by decide), parseFloat]
    have hspan := takeWhile_digits_dot ['4', '4', '9'] ['9', '9'] (by decide)
    simp only [hspan.1, hspan.2, takeWhile_digits_all ['9', '9'] (by decide)]
    rw [if_neg (by decide)]
    have h4 : digitsToNat ['4', '4', '9'] = 449 := by decide
    have h5 : digitsToNat ['9', '9'] = 99 := by decide
    rw [h4, h5]
    norm_num
  · rintro ⟨n, hn⟩
    have h : ((n : ℚ)) * 100 = 44999 := by
      rw [← hn]
      norm_num
    have h2 : (n * 100 : ℤ) = 44999 := by
      exact_mod_cast h
    omega

/-- **C6 (amended).** Frontend prices are decimal major-unit numbers,
not integer minor units: the target price accepted from the user is the
exact decimal value of the typed digits — an integer only after scaling
by `10^k` for the `k` typed fractional digits — and the price carried in
the sample `Product` record is the non-integer decimal 699.99. -/
theorem frontend_prices_decimal (w f : List Char)
    (hw : w.all Char.isDigit = true) (hf : f.all Char.isDigit = true)
    (hne : w ≠ []) :
    (∃ q : ℚ, handleFormSubmitTarget (String.mk (w ++ '.' :: f)) = some q ∧
      ∃ n : ℤ, q * 10 ^ f.length = (n : ℚ)) ∧
    mockCurrentPrice * 100 = 69999 ∧
    ¬ ∃ n : ℤ, mockCurrentPrice = (n : ℚ) := by
  refine ⟨?_, by norm_num [mockCurrentPrice], ?_⟩
  · have hs : String.mk (w ++ '.' :: f) ≠ "" := by
      intro hcontra
      have hdata := congrArg String.data hcontra
      simp at hdata
    have hspan := takeWhile_digits_dot w f hw
    have hemp : (w ++ '.' :: f).takeWhile Char.isDigit ≠ [] := by
      rw [hspan.1]
      exact hne
    refine ⟨(digitsToNat w : ℚ) + (digitsToNat f : ℚ) / 10 ^ f.length, ?_, ?_⟩
    · rw [handleFormSubmitTarget, if_neg hs, parseFloat]
      simp only [hspan.1, hspan.2, takeWhile_digits_all f hf]
      rw [if_neg (by simpa [List.isEmpty_iff] using hne)]
    · refine ⟨digitsToNat w * 10 ^ f.length + digitsToNat f, ?_⟩
      have h10 : ((10 : ℚ)) ^ f.length ≠ 0 := by positivity
      push_cast
      field_simp
  · rintro ⟨n, hn⟩
    rw [mockCurrentPrice] at hn
    have h : ((n : ℚ)) * 100 = 69999 := by
      rw [← hn]
      norm_num
    have h2 : (n * 100 : ℤ) = 69999 := by
      exact_mod_cast h
    omega

/-- Witness for the amended **C6** at the typed string "449.99". -/
theorem frontend_prices_decimal_witness :
    (['4', '4', '9'].all Char.isDigit = true) ∧
    (['9', '9'].all Char.isDigit = true) ∧
    ∃ q : ℚ, handleFormSubmitTarget
        (String.mk (['4', '4', '9'] ++ '.' :: ['9', '9'])) = some q ∧
      ∃ n : ℤ, q * 10 ^ (['9', '9'].length) = (n : ℚ) := by
  have h := frontend_prices_decimal ['4', '4', '9'] ['9', '9']
    (by decide) (by decide) (by decide)
  exact ⟨by decide, by decide, h.1⟩
